import Mathlib

/-!
Verification development for the chainsaw fluent-chain engine (src/index.js).

The JavaScript module builds a "saw" object holding an action queue
(`saw.actions`), an optional replay cursor (`saw.step`, present exactly when
recording has been enabled), and the live operation surface (`saw.handlers`).
`saw.chain()` walks the surface and replaces every non-root function by a
proxy that pushes an action record and returns the chained surface.
`saw.next()` pops the next record (destructively in light mode, by cursor
advance in recording mode) and invokes the corresponding real operation.
`upgradeChainsaw` (installed by `saw.record()`) adds the replay methods
`trap`, `down` and `jump`; before that the three methods throw a usage error.

Below, argument values are abstracted by a type `α`, real operations on the
surface by identifiers of a type `β`, and trap callbacks by `Nat` identifiers.
Executing a real operation and emitting the lifecycle events are modelled as
values of the `Event` type returned next to the successor state, since the
operation bodies themselves are external collaborator code.
-/

namespace Chainsaw

/-- An operation surface (`saw.handlers`): a JavaScript object tree whose
leaves are functions.  An object literal is encoded as an ordered
key-value list: `nil` is the empty object and `cons k v rest` is the object
holding key `k` with value `v` in front of the remaining entries `rest`. -/
inductive Node (β : Type) where
  | func : β → Node β
  | nil : Node β
  | cons : String → Node β → Node β → Node β
deriving DecidableEq, Repr

/-- The chained surface returned by `saw.chain()`: the same tree shape where
every non-root function has been replaced by a proxy closure that captures
its own path (`this.path` in the traverse callback).  A `func` leaf can only
survive at the root (`if (this.isRoot) return node`). -/
inductive PNode (β : Type) where
  | func : β → PNode β
  | proxy : List String → PNode β
  | nil : PNode β
  | cons : String → PNode β → PNode β → PNode β
deriving DecidableEq, Repr

/-- One slot of `saw.actions`: either a plain action record
`{ path, args }` pushed by a proxy, or a trap record
`{ path, step, cb, trap: true }` pushed by `saw.trap` (recording mode only).
Trap callbacks are identified by a `Nat` id. -/
inductive Record (α : Type) where
  | action (path : List String) (args : List α)
  | trap (path : List String) (step : Nat) (cb : Nat)
deriving DecidableEq, Repr

/-- The path of a record (`x.path`). -/
def Record.path {α : Type} : Record α → List String
  | Record.action p _ => p
  | Record.trap p _ _ => p

/-- Whether a record is a trap record (`x.trap` is truthy). -/
def Record.isTrap {α : Type} : Record α → Bool
  | Record.action _ _ => false
  | Record.trap _ _ _ => true

/-- The registration step of a trap record (`x.step`); the JavaScript code
only reads this field behind an `x.trap &&` guard, so the value returned on
plain action records is never observed. -/
def Record.trapStep {α : Type} : Record α → Nat
  | Record.action _ _ => 0
  | Record.trap _ s _ => s

/-- The mutable per-chain state of a saw: its action queue and its cursor.
`step = none` models a chain on which `record()` was never called (light
mode: `typeof saw.step === "undefined"` and the light `pop`/stub replay
methods are in place); `step = some k` models a recording chain with cursor
`k` (the recording `pop` and real `trap`/`down`/`jump` installed by
`upgradeChainsaw`). -/
structure Saw (α : Type) where
  actions : List (Record α)
  step : Option Nat
deriving DecidableEq, Repr

/-- Observable outcome of one engine step.  `ended` is the `end` emission,
`invoke p a` is the call `node.apply(saw.handlers, action.args)` of the real
operation found at path `p`, `skipTrap p` is `next` popping a trap record and
doing nothing, `unresolved p` is the TypeError thrown when the popped path
does not resolve to a function, `fired cb` is a trap callback invocation by
`down`, and `callNext` marks the tail call `saw.next()` made by `down`/`jump`. -/
inductive Event (α : Type) where
  | ended
  | invoke (path : List String) (args : List α)
  | skipTrap (path : List String)
  | unresolved (path : List String)
  | fired (cb : Nat)
  | callNext
deriving DecidableEq, Repr

/-- The usage error thrown by the `trap`/`down`/`jump` stubs that are in
place until `record()` is called. -/
def recordFirstMsg : String :=
  "To use the trap, down and jump features, please call record() first to start recording actions."

/-- Model of `Array.prototype.join("/")` on a path. -/
def joinSlash (ps : List String) : String :=
  String.intercalate "/" ps

/-- Property-path lookup `action.path.forEach(function (key) { node = node[key] })`
on the live surface: descend one key at a time; a missing key or a key read
on a function leaf yields `none` (JavaScript `undefined`). -/
def Node.resolve {β : Type} : Node β → List String → Option (Node β)
  | n, [] => some n
  | Node.func _, _ :: _ => none
  | Node.nil, _ :: _ => none
  | Node.cons k v rest, key :: ks =>
    if k = key then Node.resolve v ks else Node.resolve rest (key :: ks)

/-- The function found at a path, if the path resolves to a function leaf;
`none` means `node.apply` would throw a TypeError. -/
def resolveFn {β : Type} (n : Node β) (p : List String) : Option β :=
  match Node.resolve n p with
  | some (Node.func f) => some f
  | _ => none

/-- Lookup in a chained surface, mirroring `Node.resolve`. -/
def PNode.resolve {β : Type} : PNode β → List String → Option (PNode β)
  | n, [] => some n
  | PNode.func _, _ :: _ => none
  | PNode.proxy _, _ :: _ => none
  | PNode.nil, _ :: _ => none
  | PNode.cons k v rest, key :: ks =>
    if k = key then PNode.resolve v ks else PNode.resolve rest (key :: ks)

/-- The traverse walk of `saw.chain()` below the root: a function node at
accumulated path `pre` becomes the proxy capturing `pre`; objects are walked
recursively, the key of each entry extending the path of its value. -/
def chainAux {β : Type} : Node β → List String → PNode β
  | Node.func _, pre => PNode.proxy pre
  | Node.nil, _ => PNode.nil
  | Node.cons k v rest, pre =>
    PNode.cons k (chainAux v (pre ++ [k])) (chainAux rest pre)

/-- Mapping of the whole surface performed by `saw.chain()`: the root node itself is
returned unmodified (`if (this.isRoot) return node`), so a root-level
function is not proxied; only descendants are replaced. -/
def chain {β : Type} : Node β → PNode β
  | Node.func f => PNode.func f
  | Node.nil => PNode.nil
  | Node.cons k v rest => PNode.cons k (chainAux v [k]) (chain rest)

/-- The body of the proxy closure installed by `saw.chain()` at path `ps`:
`saw.actions.push({ path: ps, args: arguments }); return ch`.  The third
component is the list of operations executed synchronously by the proxy,
which is empty: the proxy only mutates the queue and returns the chained
surface `ch`. -/
def invokeProxy {α β : Type} (ch : PNode β) (s : Saw α) (ps : List String) (args : List α) :
    Saw α × PNode β × List (Event α) :=
  ({ s with actions := s.actions ++ [Record.action ps args] }, ch, [])

/-- Model of `saw.pop`: in light mode `saw.actions.shift()` (destructive removal of
the front); in recording mode `saw.actions[saw.step++]` (cursor advance,
queue untouched, the cursor incremented even past the end). -/
def pop {α : Type} (s : Saw α) : Saw α × Option (Record α) :=
  match s.step with
  | none =>
    match s.actions with
    | [] => (s, none)
    | a :: rest => ({ s with actions := rest }, some a)
  | some k => ({ s with step := some (k + 1) }, s.actions[k]?)

/-- Model of `saw.next()`: pop the next record.  An empty pop emits `end`; a trap
record is skipped with nothing executed; otherwise the record's path is
resolved against the live surface and the real operation is invoked with the
recorded arguments (an unresolvable path throws, modelled by `unresolved`). -/
def next {α β : Type} (h : Node β) (s : Saw α) : Saw α × Event α :=
  match pop s with
  | (s2, none) => (s2, Event.ended)
  | (s2, some (Record.trap p _ _)) => (s2, Event.skipTrap p)
  | (s2, some (Record.action p args)) =>
    match resolveFn h p with
    | some _ => (s2, Event.invoke p args)
    | none => (s2, Event.unresolved p)

/-- Model of `saw.record()` / `upgradeChainsaw`: unconditionally sets `saw.step = 0`
and installs the recording `pop` and the real replay methods (modelled here
by the `step`-presence dispatch of `pop`, `trap`, `down` and `jump`). -/
def record {α : Type} (s : Saw α) : Saw α :=
  { s with step := some 0 }

/-- Model of `saw.trap(name, cb)` (with `name` already normalised to a path list, as
by `Array.isArray(name) ? name : [name]`): before `record()` this is the
throwing stub; after it, pushes a trap record tagged with the current
cursor. -/
def trap {α : Type} (s : Saw α) (name : List String) (cb : Nat) : Except String (Saw α) :=
  match s.step with
  | none => Except.error recordFirstMsg
  | some st => Except.ok { s with actions := s.actions ++ [Record.trap name st cb] }

/-- The callback passed to `.map` inside `saw.down`: a trap record whose
registration step is at or before the current cursor maps to `false`
(a boundary); any other record matches iff its slash-joined path equals the
slash-joined search name. -/
def downCheck {α : Type} (st : Nat) (ps : String) (x : Record α) : Bool :=
  if x.isTrap && decide (x.trapStep ≤ st) then false
  else joinSlash x.path == ps

/-- The cursor position computed by the search phase of `saw.down(name)`:
map `downCheck` over `saw.actions.slice(saw.step)` and take `indexOf(true)`;
on a hit (`i >= 0`) the cursor advances by the relative index
(`saw.step += i`), on a miss it is set to the queue length
(`saw.step = saw.actions.length`). -/
def downTarget {α : Type} (s : Saw α) (st : Nat) (name : List String) : Nat :=
  if ((s.actions.drop st).map (downCheck st (joinSlash name))).indexOf true
      < ((s.actions.drop st).map (downCheck st (joinSlash name))).length
  then st + ((s.actions.drop st).map (downCheck st (joinSlash name))).indexOf true
  else s.actions.length

/-- Model of `saw.down(name)`: before `record()` the throwing stub.  After it: move
the cursor to `downTarget`; then, if the slot immediately before the new
cursor (`saw.actions[saw.step - 1]`, undefined when the cursor is 0) is a
trap record, the cursor is rewound to that trap's registration step and its
callback fires; otherwise `saw.next()` is called. -/
def down {α : Type} (s : Saw α) (name : List String) : Except String (Saw α × Event α) :=
  match s.step with
  | none => Except.error recordFirstMsg
  | some st =>
    match (if downTarget s st name = 0 then none else s.actions[downTarget s st name - 1]?) with
    | some (Record.trap _ ts cb) => Except.ok ({ s with step := some ts }, Event.fired cb)
    | _ => Except.ok ({ s with step := some (downTarget s st name) }, Event.callNext)

/-- Model of `saw.jump(step)`: before `record()` the throwing stub; after it, sets
the cursor to the given absolute position and resumes via `saw.next()`. -/
def jump {α : Type} (s : Saw α) (k : Nat) : Except String (Saw α × Event α) :=
  match s.step with
  | none => Except.error recordFirstMsg
  | some _ => Except.ok ({ s with step := some k }, Event.callNext)

/-- Result of `saw.nest([autoAdvance], cb, ...)` as far as the chain states
are concerned: `child` is the freshly built saw (own empty queue, upgraded
to recording iff the parent's `saw.step` is defined) exactly as it stands
when `cb.apply(s.chain(), args)` runs; `registersParentNext` records whether
`s.on("end", saw.next)` was installed (`autonext !== false`, where `autonext`
is the leading boolean argument if one was passed and `true` otherwise). -/
structure NestResult (α : Type) where
  child : Saw α
  registersParentNext : Bool
deriving DecidableEq, Repr

/-- Model of `saw.nest`: build a fresh saw from the same builder, inherit recording
downward, and decide whether the parent's `next` is registered on the child's
`end` event.  `autoAdvanceArg` is `some b` when a leading boolean `b` was
passed and `none` otherwise. -/
def nest {α : Type} (parent : Saw α) (autoAdvanceArg : Option Bool) : NestResult α :=
  let autonext := autoAdvanceArg.getD true
  let s0 : Saw α := { actions := [], step := none }
  let s1 := if parent.step.isSome then record s0 else s0
  { child := s1, registersParentNext := autonext }

/-- The records an execution still has in front of it: the whole queue in
light mode, the suffix from the cursor in recording mode. -/
def pending {α : Type} (s : Saw α) : List (Record α) :=
  match s.step with
  | none => s.actions
  | some k => s.actions.drop k

/-- The event `next` produces for a record it can execute: plain action
records are invoked, trap records are skipped. -/
def Record.asInvoke {α : Type} : Record α → Event α
  | Record.action p a => Event.invoke p a
  | Record.trap p _ _ => Event.skipTrap p

/-- Whether a record is a plain action whose path resolves to a function on
the given surface. -/
def plainCallable {α β : Type} (h : Node β) : Record α → Bool
  | Record.action p _ => (resolveFn h p).isSome
  | Record.trap _ _ _ => false

/-- Iterate the state component of `next` a given number of times. -/
def iterNext {α β : Type} (h : Node β) : Nat → Saw α → Saw α
  | 0, s => s
  | k + 1, s => iterNext h k (next h s).1

/-- The event trace of driving a chain by repeated `next()` calls with the
given fuel, stopping at the first `end` emission. -/
def runTrace {α β : Type} (h : Node β) : Nat → Saw α → List (Event α)
  | 0, _ => []
  | fuel + 1, s =>
    match next h s with
    | (_, Event.ended) => [Event.ended]
    | (s2, ev) => ev :: runTrace h fuel s2

/-- Claim-shaped forward search used to restate `down`: the relative index
of the first record satisfying the predicate. -/
def searchFrom {α : Type} (p : Record α → Bool) : List (Record α) → Option Nat
  | [] => none
  | r :: rest => if p r then some 0 else (searchFrom p rest).map (· + 1)

/-- Claim-shaped target position of `down`: the absolute index of the first
match at or after the cursor, or the queue length when there is none. -/
def claimedTarget {α : Type} (s : Saw α) (st : Nat) (name : List String) : Nat :=
  match searchFrom (downCheck st (joinSlash name)) (s.actions.drop st) with
  | some i => st + i
  | none => s.actions.length

/-- The trap data of the slot immediately preceding position `j`, if that
slot exists and is a trap record. -/
def prevSlotTrap {α : Type} (s : Saw α) (j : Nat) : Option (Nat × Nat) :=
  if j = 0 then none
  else
    match s.actions[j - 1]? with
    | some (Record.trap _ ts cb) => some (ts, cb)
    | _ => none

/-- The top-level keys of a surface object (empty for the other shapes). -/
def Node.keys {β : Type} : Node β → List String
  | Node.cons k _ rest => k :: Node.keys rest
  | _ => []

/-- The top-level keys of a chained surface object. -/
def PNode.keys {β : Type} : PNode β → List String
  | PNode.cons k _ rest => k :: PNode.keys rest
  | _ => []

/-- A recording saw whose queue holds a single trap record for path
`["a"]` registered at step 0, with the cursor at 0. -/
def cexSaw : Saw Nat :=
  { actions := [Record.trap ["a"] 0 7], step := some 0 }

/-- Which chain of a nest pair an event belongs to. -/
inductive Side where
  | parent
  | child
deriving DecidableEq, Repr

/-- A pending callback on the event loop driving a nest pair: the next
`next()` call of the child or of the parent chain. -/
inductive Task where
  | childNext
  | parentNext
deriving DecidableEq, Repr

/-- A parent chain suspended on a nested child chain: the two saws, their
live surfaces, and whether `s.on("end", saw.next)` was registered by `nest`. -/
structure NestMachine (α β : Type) where
  phandlers : Node β
  chandlers : Node β
  psaw : Saw α
  csaw : Saw α
  registered : Bool

/-- Continuation after a child `next()`: the child's `end` emission invokes
the registered listener `saw.next` of the parent (when registered); an
invoked child operation advances its own chain; a skipped trap or a thrown
resolution error schedules nothing. -/
def childCont {α : Type} (registered : Bool) : Event α → Option Task
  | Event.ended => if registered then some Task.parentNext else none
  | Event.invoke _ _ => some Task.childNext
  | _ => none

/-- Continuation after a parent `next()`: an invoked parent operation
advances its own chain; anything else schedules nothing. -/
def parentCont {α : Type} : Event α → Option Task
  | Event.invoke _ _ => some Task.parentNext
  | _ => none

/-- One event-loop step of a nest pair, under the collaborator discipline
that every invoked operation calls `next()` once on its own chain (as the
operations in the repository's examples do). -/
def machineStep {α β : Type} (m : NestMachine α β) :
    Task → NestMachine α β × (Side × Event α) × Option Task
  | Task.childNext =>
    let r := next m.chandlers m.csaw
    ({ m with csaw := r.1 }, (Side.child, r.2), childCont m.registered r.2)
  | Task.parentNext =>
    let r := next m.phandlers m.psaw
    ({ m with psaw := r.1 }, (Side.parent, r.2), parentCont r.2)

/-- Run the nest-pair event loop from a pending task, producing the tagged
event trace. -/
def machineRun {α β : Type} : Nat → NestMachine α β → Option Task → List (Side × Event α)
  | 0, _, _ => []
  | _ + 1, _, none => []
  | fuel + 1, m, some t =>
    let r := machineStep m t
    r.2.1 :: machineRun fuel r.1 r.2.2

/-! ## Helper lemmas -/

/-- The driver step `next` changes the state exactly as `pop` does, whatever the event. -/
theorem next_fst {α β : Type} (h : Node β) (s : Saw α) : (next h s).1 = (pop s).1 := by
  unfold next
  split <;> (try split) <;> simp_all

/-- A `pop` comes back empty exactly when no record is pending. -/
theorem pop_none_iff {α : Type} (s : Saw α) : (pop s).2 = none ↔ pending s = [] := by
  unfold pop pending
  cases s.step with
  | none => cases s.actions <;> simp
  | some k => simp [List.getElem?_eq_none_iff, List.drop_eq_nil_iff]

/-- Iterating `next` on a recording saw only advances the cursor. -/
theorem iterNext_rec {α β : Type} (h : Node β) (l : List (Record α)) (k j : Nat) :
    iterNext h k { actions := l, step := some j } = { actions := l, step := some (j + k) } := by
  induction k generalizing j with
  | zero => rfl
  | succ k ih =>
    have h1 : (next h ({ actions := l, step := some j } : Saw α)).1
        = { actions := l, step := some (j + 1) } := by
      rw [next_fst]; rfl
    show iterNext h k (next h ({ actions := l, step := some j } : Saw α)).1 = _
    rw [h1, ih]
    have : j + 1 + k = j + (k + 1) := by omega
    rw [this]

/-- Iterating `next` on a light saw shifts records off the front. -/
theorem iterNext_light {α β : Type} (h : Node β) :
    ∀ (k : Nat) (l : List (Record α)),
      iterNext h k { actions := l, step := none } = { actions := l.drop k, step := none }
  | 0, l => by simp [iterNext]
  | k + 1, [] => by
    have h1 : (next h ({ actions := [], step := none } : Saw α)).1
        = { actions := [], step := none } := by
      rw [next_fst]; rfl
    show iterNext h k (next h ({ actions := [], step := none } : Saw α)).1 = _
    rw [h1, iterNext_light h k []]
    simp
  | k + 1, r :: rest => by
    have h1 : (next h ({ actions := r :: rest, step := none } : Saw α)).1
        = { actions := rest, step := none } := by
      rw [next_fst]; rfl
    show iterNext h k (next h ({ actions := r :: rest, step := none } : Saw α)).1 = _
    rw [h1, iterNext_light h k rest]
    rfl

/-- Driving a light saw whose queue holds only resolvable plain actions
produces exactly the queued invocations in order, then the end signal. -/
theorem runTrace_light {α β : Type} (h : Node β) :
    ∀ l : List (Record α), (∀ r ∈ l, plainCallable h r = true) →
      runTrace h (l.length + 1) { actions := l, step := none }
        = l.map Record.asInvoke ++ [Event.ended]
  | [], _ => rfl
  | r :: rest, hall => by
    have hr := hall r (List.mem_cons_self r rest)
    cases r with
    | trap p ts cb => simp [plainCallable] at hr
    | action p args =>
      simp only [plainCallable] at hr
      obtain ⟨f, hf⟩ := Option.isSome_iff_exists.mp hr
      have h1 : next h ({ actions := Record.action p args :: rest, step := none } : Saw α)
          = ({ actions := rest, step := none }, Event.invoke p args) := by
        simp [next, pop, hf]
      have ih := runTrace_light h rest (fun r hr0 => hall r (List.mem_cons_of_mem _ hr0))
      simp only [List.length_cons]
      show runTrace h (rest.length + 1 + 1) { actions := Record.action p args :: rest, step := none } = _
      rw [runTrace, h1]
      simp only [List.map_cons, Record.asInvoke, List.cons_append]
      rw [ih]

/-- A successful claim-shaped search matches the code's `indexOf` search. -/
theorem searchFrom_some {α : Type} (p : Record α → Bool) :
    ∀ (l : List (Record α)) (i : Nat), searchFrom p l = some i →
      (l.map p).indexOf true = i ∧ i < l.length := by
  intro l
  induction l with
  | nil => intro i hi; simp [searchFrom] at hi
  | cons r rest ih =>
    intro i hi
    by_cases hp : p r
    · simp [searchFrom, hp] at hi
      subst hi
      refine ⟨by simp [List.indexOf, List.findIdx_cons, hp], by simp⟩
    · simp [searchFrom, hp] at hi
      obtain ⟨i0, h1, h2⟩ := hi
      obtain ⟨ha, hb⟩ := ih i0 h1
      subst h2
      refine ⟨?_, by simpa using Nat.succ_lt_succ hb⟩
      simp [List.indexOf, List.findIdx_cons, hp]
      simpa [List.indexOf] using ha

/-- A failed claim-shaped search matches the code's `indexOf` miss. -/
theorem searchFrom_none {α : Type} (p : Record α → Bool) :
    ∀ l : List (Record α), searchFrom p l = none →
      (l.map p).indexOf true = (l.map p).length := by
  intro l
  induction l with
  | nil => intro _; simp
  | cons r rest ih =>
    intro hn
    by_cases hp : p r
    · simp [searchFrom, hp] at hn
    · simp [searchFrom, hp] at hn
      have := ih hn
      simp [List.indexOf, List.findIdx_cons, hp]
      simpa [List.indexOf] using this

/-- The code's search phase of `down` lands exactly where the claim-shaped
search says: on the first match after the cursor, or at the queue length. -/
theorem downTarget_eq_claimed {α : Type} (s : Saw α) (st : Nat) (name : List String) :
    downTarget s st name = claimedTarget s st name := by
  unfold downTarget claimedTarget
  cases hres : searchFrom (downCheck st (joinSlash name)) (s.actions.drop st) with
  | none =>
    have hb := searchFrom_none _ _ hres
    rw [hb]
    simp
  | some i =>
    obtain ⟨ha, hb⟩ := searchFrom_some _ _ _ hres
    have hlen : ((s.actions.drop st).map (downCheck st (joinSlash name))).length
        = (s.actions.drop st).length := by simp
    rw [ha, hlen, if_pos hb]

/-- Without a pending task the nest-pair event loop is silent. -/
theorem machineRun_none {α β : Type} (fuel : Nat) (m : NestMachine α β) :
    machineRun fuel m none = [] := by
  cases fuel <;> rfl

/-- A parent step only ever schedules another parent step. -/
theorem parentCont_cases {α : Type} (ev : Event α) :
    parentCont ev = none ∨ parentCont ev = some Task.parentNext := by
  cases ev <;> simp [parentCont]

/-- A `machineStep` never changes the listener-registration flag. -/
theorem machineStep_registered {α β : Type} (m : NestMachine α β) (t : Task) :
    ((machineStep m t).1).registered = m.registered := by
  cases t <;> rfl

/-- Every event produced from a pending parent task is a parent event. -/
theorem parent_phase {α β : Type} :
    ∀ (fuel : Nat) (m : NestMachine α β) (e : Side × Event α),
      e ∈ machineRun fuel m (some Task.parentNext) → e.1 = Side.parent := by
  intro fuel
  induction fuel with
  | zero => intro m e he; simp [machineRun] at he
  | succ fuel ih =>
    intro m e he
    simp only [machineRun, machineStep] at he
    rcases List.mem_cons.mp he with h1 | h2
    · rw [h1]
    · rcases parentCont_cases ((next m.phandlers m.psaw).2) with hc | hc
      · rw [hc, machineRun_none] at h2
        simp at h2
      · rw [hc] at h2
        exact ih _ _ h2

/-- Trace shape of a nest pair driven from a pending child task: a block of
child events, then (only if the parent listener was registered, and only
after the child's end signal) a block of parent events. -/
theorem child_phase {α β : Type} :
    ∀ (fuel : Nat) (m : NestMachine α β),
      ∃ ct pt,
        machineRun fuel m (some Task.childNext) = ct ++ pt
        ∧ (∀ e ∈ ct, e.1 = Side.child)
        ∧ (∀ e ∈ pt, e.1 = Side.parent)
        ∧ (pt ≠ [] → m.registered = true ∧ (Side.child, Event.ended) ∈ ct) := by
  intro fuel
  induction fuel with
  | zero =>
    intro m
    exact ⟨[], [], by simp [machineRun], by simp, by simp, by simp⟩
  | succ fuel ih =>
    intro m
    rcases hev : (next m.chandlers m.csaw).2 with _ | ⟨p, a⟩ | p | p | cb | _
    case ended =>
      by_cases hreg : m.registered
      · refine ⟨[(Side.child, Event.ended)],
          machineRun fuel { m with csaw := (next m.chandlers m.csaw).1 } (some Task.parentNext),
          ?_, ?_, ?_, ?_⟩
        · simp only [machineRun, machineStep, childCont, hev, hreg, if_pos]
          rfl
        · intro e he; simp at he; rw [he]
        · intro e he; exact parent_phase fuel _ e he
        · intro _; exact ⟨hreg, by simp⟩
      · refine ⟨[(Side.child, Event.ended)], [], ?_, ?_, ?_, ?_⟩
        · simp only [machineRun, machineStep, childCont, hev, hreg, if_neg, machineRun_none,
            Bool.false_eq_true, ite_false, List.append_nil]
        · intro e he; simp at he; rw [he]
        · intro e he; simp at he
        · intro hpt; exact absurd rfl hpt
    case invoke =>
      obtain ⟨ct, pt, htr, hct, hpt, hend⟩ :=
        ih { m with csaw := (next m.chandlers m.csaw).1 }
      refine ⟨(Side.child, Event.invoke p a) :: ct, pt, ?_, ?_, hpt, ?_⟩
      · simp only [machineRun, machineStep, childCont, hev]
        rw [htr]
        rfl
      · intro e he
        rcases List.mem_cons.mp he with h1 | h2
        · rw [h1]
        · exact hct e h2
      · intro hne
        obtain ⟨h1, h2⟩ := hend hne
        exact ⟨h1, List.mem_cons_of_mem _ h2⟩
    case skipTrap =>
      refine ⟨[(Side.child, Event.skipTrap p)], [], ?_, ?_, ?_, ?_⟩
      · simp only [machineRun, machineStep, childCont, hev, machineRun_none, List.append_nil]
      · intro e he; simp at he; rw [he]
      · intro e he; simp at he
      · intro hpt; exact absurd rfl hpt
    case unresolved =>
      refine ⟨[(Side.child, Event.unresolved p)], [], ?_, ?_, ?_, ?_⟩
      · simp only [machineRun, machineStep, childCont, hev, machineRun_none, List.append_nil]
      · intro e he; simp at he; rw [he]
      · intro e he; simp at he
      · intro hpt; exact absurd rfl hpt
    case fired =>
      refine ⟨[(Side.child, Event.fired cb)], [], ?_, ?_, ?_, ?_⟩
      · simp only [machineRun, machineStep, childCont, hev, machineRun_none, List.append_nil]
      · intro e he; simp at he; rw [he]
      · intro e he; simp at he
      · intro hpt; exact absurd rfl hpt
    case callNext =>
      refine ⟨[(Side.child, Event.callNext)], [], ?_, ?_, ?_, ?_⟩
      · simp only [machineRun, machineStep, childCont, hev, machineRun_none, List.append_nil]
      · intro e he; simp at he; rw [he]
      · intro e he; simp at he
      · intro hpt; exact absurd rfl hpt

/-- Below the root, the traverse walk replaces the function at any relative
path `ps` by the proxy capturing the full path `pre ++ ps`. -/
theorem chainAux_resolve {β : Type} :
    ∀ (n : Node β) (ps pre : List String) (f : β),
      Node.resolve n ps = some (Node.func f) →
      PNode.resolve (chainAux n pre) ps = some (PNode.proxy (pre ++ ps)) := by
  intro n
  induction n with
  | func g =>
    intro ps pre f hres
    cases ps with
    | nil => simp [chainAux, PNode.resolve]
    | cons k ks => simp [Node.resolve] at hres
  | nil =>
    intro ps pre f hres
    cases ps with
    | nil => simp [Node.resolve] at hres
    | cons k ks => simp [Node.resolve] at hres
  | cons k v rest ihv ihrest =>
    intro ps pre f hres
    cases ps with
    | nil => simp [Node.resolve] at hres
    | cons key ks =>
      by_cases hk : k = key
      · subst hk
        rw [Node.resolve, if_pos rfl] at hres
        have := ihv ks (pre ++ [k]) f hres
        show PNode.resolve (PNode.cons k (chainAux v (pre ++ [k])) (chainAux rest pre)) (k :: ks) = _
        rw [PNode.resolve, if_pos rfl, this]
        simp
      · rw [Node.resolve, if_neg hk] at hres
        have := ihrest (key :: ks) pre f hres
        show PNode.resolve (PNode.cons k (chainAux v (pre ++ [k])) (chainAux rest pre)) (key :: ks) = _
        rw [PNode.resolve, if_neg hk, this]

/-- The chained surface holds, at every path where the original surface
holds a function, the proxy capturing exactly that path. -/
theorem chain_resolve {β : Type} :
    ∀ (n : Node β) (ps : List String) (f : β), ps ≠ [] →
      Node.resolve n ps = some (Node.func f) →
      PNode.resolve (chain n) ps = some (PNode.proxy ps) := by
  intro n
  induction n with
  | func g =>
    intro ps f hne hres
    cases ps with
    | nil => exact absurd rfl hne
    | cons k ks => simp [Node.resolve] at hres
  | nil =>
    intro ps f hne hres
    cases ps with
    | nil => exact absurd rfl hne
    | cons k ks => simp [Node.resolve] at hres
  | cons k v rest ihv ihrest =>
    intro ps f hne hres
    cases ps with
    | nil => exact absurd rfl hne
    | cons key ks =>
      by_cases hk : k = key
      · subst hk
        rw [Node.resolve, if_pos rfl] at hres
        have := chainAux_resolve v ks [k] f hres
        show PNode.resolve (PNode.cons k (chainAux v [k]) (chain rest)) (k :: ks) = _
        rw [PNode.resolve, if_pos rfl, this]
        simp
      · rw [Node.resolve, if_neg hk] at hres
        have := ihrest (key :: ks) f (by simp) hres
        show PNode.resolve (PNode.cons k (chainAux v [k]) (chain rest)) (key :: ks) = _
        rw [PNode.resolve, if_neg hk, this]

/-- The chain walk keeps the root object's keys. -/
theorem chain_keys_eq {β : Type} : ∀ n : Node β, PNode.keys (chain n) = Node.keys n := by
  intro n
  induction n with
  | func g => rfl
  | nil => rfl
  | cons k v rest ihv ihrest =>
    show k :: PNode.keys (chain rest) = k :: Node.keys rest
    rw [ihrest]

/-- The chain walk never replaces the root by a proxy. -/
theorem chain_ne_proxy {β : Type} (n : Node β) (q : List String) :
    chain n ≠ PNode.proxy q := by
  cases n <;> simp [chain]

/-! ## Claim theorems -/

/-- C1: every leaf operation of the surface is replaced by `chain()` with a
proxy capturing exactly its path segments; invoking the proxy appends
exactly one action record `(path, args)` at the back of the queue, leaves
the cursor alone, returns the chain-returning surface itself, and executes
nothing synchronously; the root node is returned unmodified (a root function
stays a function, an object root keeps its keys, the root is never a proxy). -/
theorem chain_intercepts (α : Type) {β : Type} (n : Node β) :
    (∀ (ps : List String) (f : β), ps ≠ [] →
        Node.resolve n ps = some (Node.func f) →
        PNode.resolve (chain n) ps = some (PNode.proxy ps))
    ∧ (∀ (ch : PNode β) (s : Saw α) (ps : List String) (args : List α),
        (invokeProxy ch s ps args).1.actions = s.actions ++ [Record.action ps args]
        ∧ (invokeProxy ch s ps args).1.step = s.step
        ∧ (invokeProxy ch s ps args).2.1 = ch
        ∧ (invokeProxy ch s ps args).2.2 = [])
    ∧ (∀ g : β, n = Node.func g → chain n = PNode.func g)
    ∧ (∀ q : List String, chain n ≠ PNode.proxy q)
    ∧ PNode.keys (chain n) = Node.keys n := by
  refine ⟨fun ps f hne hres => chain_resolve n ps f hne hres,
    fun ch s ps args => ⟨rfl, rfl, rfl, rfl⟩, ?_, chain_ne_proxy n, chain_keys_eq n⟩
  intro g hg
  subst hg
  rfl

/-- Witness for C1 at a one-key surface. -/
theorem chain_intercepts_witness :
    PNode.resolve (chain (Node.cons "x" (Node.func (1 : Nat)) Node.nil)) ["x"]
      = some (PNode.proxy ["x"]) :=
  (chain_intercepts Nat (Node.cons "x" (Node.func (1 : Nat)) Node.nil)).1
    ["x"] 1 (by decide) rfl

/-- C2: in light mode, driving a queue of synchronously issued calls by
repeated `next()` invokes the corresponding operations in exactly the issue
order, exactly once each, ending with the end signal, and each consumed
record is destructively removed from the front of the queue. -/
theorem light_run_in_order {α β : Type} (h : Node β) (l : List (Record α))
    (hall : ∀ r ∈ l, plainCallable h r = true) :
    runTrace h (l.length + 1) { actions := l, step := none }
      = l.map Record.asInvoke ++ [Event.ended]
    ∧ ∀ k : Nat, (iterNext h k { actions := l, step := none }).actions = l.drop k := by
  refine ⟨runTrace_light h l hall, ?_⟩
  intro k
  rw [iterNext_light h k l]

/-- Witness for C2 on a one-call queue. -/
theorem light_run_in_order_witness :
    runTrace (Node.cons "a" (Node.func 0) Node.nil)
        ([Record.action ["a"] [(3 : Nat)]].length + 1)
        { actions := [Record.action ["a"] [(3 : Nat)]], step := none }
      = [Event.invoke ["a"] [3], Event.ended] := by
  have h := light_run_in_order (Node.cons "a" (Node.func 0) Node.nil)
      [Record.action ["a"] [(3 : Nat)]] (by decide)
  exact h.1.trans (by rfl)

/-- C3 counterexample: on `cexSaw` (queue `[trap ["a"] 0 7]`, cursor 0),
`down ["b"]` finds no match, yet the final cursor is the trap's registration
step 0 — not the queue length — and the trap's callback fires, because the
code checks the slot before the cursor for a trap in the no-match case too. -/
theorem down_noMatch_trap_counterexample :
    down cexSaw ["b"] = Except.ok ({ actions := cexSaw.actions, step := some 0 }, Event.fired 7)
    ∧ some 0 ≠ some cexSaw.actions.length
    ∧ down cexSaw ["b"]
        ≠ Except.ok ({ actions := cexSaw.actions, step := some cexSaw.actions.length },
            Event.callNext) := by
  refine ⟨rfl, by decide, ?_⟩
  intro hc
  rw [show down cexSaw ["b"]
      = Except.ok ({ actions := cexSaw.actions, step := some 0 }, Event.fired 7) from rfl] at hc
  simp at hc

/-- C3 (amended): with the cursor at `st`, `down name` moves the cursor to
the first record after `st` matching `name` (trap records registered at or
before `st` being non-matching boundaries), or to the queue length when none
matches; then — in either case — if the slot immediately preceding the new
cursor is a trap record, the cursor is instead rewound to that trap's
registration step and its callback fires; otherwise execution resumes via
`next()`.  The queue itself is never modified. -/
theorem down_characterization {α : Type} (s : Saw α) (st : Nat) (hs : s.step = some st)
    (name : List String) :
    down s name
      = Except.ok
          (match prevSlotTrap s (claimedTarget s st name) with
           | some (ts, cb) => ({ s with step := some ts }, Event.fired cb)
           | none => ({ s with step := some (claimedTarget s st name) }, Event.callNext)) := by
  simp only [down, hs]
  rw [downTarget_eq_claimed]
  unfold prevSlotTrap
  by_cases h0 : claimedTarget s st name = 0
  · rw [h0]
    simp
  · rw [if_neg h0, if_neg h0]
    cases hg : s.actions[claimedTarget s st name - 1]? with
    | none => simp
    | some r =>
      cases r with
      | action p a => simp
      | trap p ts cb => simp

/-- Witness for C3's amended theorem: a plain match at the cursor. -/
theorem down_characterization_witness :
    down ({ actions := [Record.action ["a"] ([] : List Nat)], step := some 0 } : Saw Nat) ["a"]
      = Except.ok ({ actions := [Record.action ["a"] ([] : List Nat)], step := some 0 },
          Event.callNext) := by
  have h := down_characterization
      ({ actions := [Record.action ["a"] ([] : List Nat)], step := some 0 } : Saw Nat) 0 rfl ["a"]
  exact h.trans (by rfl)

/-- C4: `nest` registers the parent's `next` on the child's end signal
exactly when `autoAdvance` is not explicitly `false`; a child step schedules
the parent's `next` exactly at the child's end signal (and only when
registered); and in the event-loop trace driven from the child, every parent
event comes after the child's end signal — no parent action runs while the
child chain is alive, and none at all when registration was declined. -/
theorem nest_autoAdvance_suspension {α β γ : Type} (parent : Saw α) (auto : Option Bool)
    (m : NestMachine γ β) (fuel : Nat) :
    ((nest parent auto).registersParentNext = true ↔ auto ≠ some false)
    ∧ ((machineStep m Task.childNext).2.2 = some Task.parentNext
        ↔ ((next m.chandlers m.csaw).2 = Event.ended ∧ m.registered = true))
    ∧ (∃ ct pt,
        machineRun fuel m (some Task.childNext) = ct ++ pt
        ∧ (∀ e ∈ ct, e.1 = Side.child)
        ∧ (∀ e ∈ pt, e.1 = Side.parent)
        ∧ (pt ≠ [] → m.registered = true ∧ (Side.child, Event.ended) ∈ ct)) := by
  refine ⟨?_, ?_, child_phase fuel m⟩
  · rcases auto with _ | b
    · simp [nest]
    · cases b <;> simp [nest]
  · cases hev : (next m.chandlers m.csaw).2 <;> cases hreg : m.registered <;>
      simp [machineStep, childCont, hev, hreg]

/-- Witness for C4: an ended child with registration schedules the parent. -/
theorem nest_autoAdvance_suspension_witness :
    (machineStep (⟨Node.nil, Node.nil, { actions := [], step := none },
        { actions := [], step := some 0 }, true⟩ : NestMachine Nat Nat) Task.childNext).2.2
      = some Task.parentNext :=
  (nest_autoAdvance_suspension ({ actions := [], step := none } : Saw Nat) Option.none
    (⟨Node.nil, Node.nil, { actions := [], step := none },
        { actions := [], step := some 0 }, true⟩ : NestMachine Nat Nat) 0).2.1.mpr
    ⟨rfl, rfl⟩

/-- C5: in recording mode `next()` never removes records (any number of
steps leaves the queue intact), `jump 0` from any such state restores the
initial state and resumes via `next()`, and the replay from the jumped-to
state produces exactly the original trace: same paths, same arguments, same
order. -/
theorem recording_replay {α β : Type} (h : Node β) (l : List (Record α)) (k fuel : Nat) :
    (iterNext h k { actions := l, step := some 0 }).actions = l
    ∧ jump (iterNext h k { actions := l, step := some 0 }) 0
        = Except.ok ({ actions := l, step := some 0 }, Event.callNext)
    ∧ ∀ (s2 : Saw α) (ev : Event α),
        jump (iterNext h k { actions := l, step := some 0 }) 0 = Except.ok (s2, ev) →
          runTrace h fuel s2 = runTrace h fuel { actions := l, step := some 0 } := by
  have hk := iterNext_rec h l k 0
  refine ⟨by rw [hk], by rw [hk]; rfl, ?_⟩
  intro s2 ev hj
  rw [hk] at hj
  simp only [jump, Except.ok.injEq, Prod.mk.injEq] at hj
  rw [← hj.1]

/-- Witness for C5 on a one-action recording queue. -/
theorem recording_replay_witness :
    (iterNext (Node.cons "a" (Node.func 0) Node.nil) 2
        { actions := [Record.action ["a"] [(5 : Nat)]], step := some 0 }).actions
      = [Record.action ["a"] [(5 : Nat)]]
    ∧ runTrace (Node.cons "a" (Node.func 0) Node.nil) 2
        ({ actions := [Record.action ["a"] [(5 : Nat)]], step := some 0 } : Saw Nat)
      = runTrace (Node.cons "a" (Node.func 0) Node.nil) 2
        { actions := [Record.action ["a"] [(5 : Nat)]], step := some 0 } :=
  ⟨(recording_replay (Node.cons "a" (Node.func 0) Node.nil)
      [Record.action ["a"] [(5 : Nat)]] 2 2).1,
   (recording_replay (Node.cons "a" (Node.func 0) Node.nil)
      [Record.action ["a"] [(5 : Nat)]] 2 2).2.2
      ({ actions := [Record.action ["a"] [(5 : Nat)]], step := some 0 } : Saw Nat)
      Event.callNext rfl⟩

/-- C6: `next()` signals the end exactly when no pending record remains;
popping a trap record makes `next()` skip it (no operation invoked), and
`next()` never fires a trap callback — only `down` produces `fired` events. -/
theorem next_end_and_trap_skip {α β : Type} (h : Node β) (s : Saw α) :
    ((next h s).2 = Event.ended ↔ pending s = [])
    ∧ (∀ (p : List String) (ts cb : Nat),
        (pop s).2 = some (Record.trap p ts cb) → (next h s).2 = Event.skipTrap p)
    ∧ (∀ cb : Nat, (next h s).2 ≠ Event.fired cb) := by
  rcases hp : pop s with ⟨s2, o⟩
  have h2 : (pop s).2 = o := by rw [hp]
  cases o with
  | none =>
    have hnx : next h s = (s2, Event.ended) := by unfold next; rw [hp]
    have hpend : pending s = [] := (pop_none_iff s).mp h2
    refine ⟨?_, ?_, ?_⟩
    · rw [hnx]; simp [hpend]
    · intro p ts cb hc
      simp at hc
    · intro cb
      rw [hnx]
      simp
  | some r =>
    have hpend : pending s ≠ [] := by
      intro hh
      have := ((pop_none_iff s).mpr hh).symm.trans h2
      cases this
    cases r with
    | trap p ts cb =>
      have hnx : next h s = (s2, Event.skipTrap p) := by unfold next; rw [hp]
      refine ⟨?_, ?_, ?_⟩
      · rw [hnx]; simp [hpend]
      · intro p2 ts2 cb2 hc
        simp only [Prod.snd, Option.some.injEq, Record.trap.injEq] at hc
        rw [hnx]
        simp [hc.1]
      · intro cb2
        rw [hnx]
        simp
    | action p args =>
      cases hr : resolveFn h p with
      | some f =>
        have hnx : next h s = (s2, Event.invoke p args) := by
          unfold next; rw [hp]; simp [hr]
        refine ⟨?_, ?_, ?_⟩
        · rw [hnx]; simp [hpend]
        · intro p2 ts2 cb2 hc
          simp at hc
        · intro cb2; rw [hnx]; simp
      | none =>
        have hnx : next h s = (s2, Event.unresolved p) := by
          unfold next; rw [hp]; simp [hr]
        refine ⟨?_, ?_, ?_⟩
        · rw [hnx]; simp [hpend]
        · intro p2 ts2 cb2 hc
          simp at hc
        · intro cb2; rw [hnx]; simp

/-- Witness for C6: a trap at the cursor is skipped. -/
theorem next_end_and_trap_skip_witness :
    (next (Node.nil : Node Nat)
        ({ actions := [Record.trap ["t"] 0 5], step := some 0 } : Saw Nat)).2
      = Event.skipTrap ["t"] :=
  (next_end_and_trap_skip (Node.nil : Node Nat)
    ({ actions := [Record.trap ["t"] 0 5], step := some 0 } : Saw Nat)).2.1 ["t"] 0 5 rfl

/-- C7: on a chain whose recording was never enabled (`saw.step` absent),
`trap`, `down` and `jump` all fail synchronously with the record-first usage
error — they return no successor state, so neither queue nor cursor can be
touched and no replay operation executes. -/
theorem light_replay_methods_error {α : Type} (s : Saw α) (hs : s.step = none)
    (name : List String) (cb k : Nat) :
    trap s name cb = Except.error recordFirstMsg
    ∧ down s name = Except.error recordFirstMsg
    ∧ jump s k = Except.error recordFirstMsg := by
  unfold trap down jump
  rw [hs]
  exact ⟨rfl, rfl, rfl⟩

/-- Witness for C7 on a fresh light saw. -/
theorem light_replay_methods_error_witness :
    trap ({ actions := [], step := none } : Saw Nat) ["a"] 0 = Except.error recordFirstMsg :=
  (light_replay_methods_error ({ actions := [], step := none } : Saw Nat) rfl ["a"] 0 0).1

/-- C8: when `next()` pops an action record whose path does not resolve to a
function on the current surface, the outcome is the thrown resolution error —
not the end signal, not a silent skip, and not a normal invocation. -/
theorem next_unresolved_loud {α β : Type} (h : Node β) (s : Saw α)
    (p : List String) (args : List α)
    (hpop : (pop s).2 = some (Record.action p args))
    (hres : resolveFn h p = none) :
    (next h s).2 = Event.unresolved p
    ∧ (next h s).2 ≠ Event.ended
    ∧ (∀ q : List String, (next h s).2 ≠ Event.skipTrap q)
    ∧ (∀ (q : List String) (a : List α), (next h s).2 ≠ Event.invoke q a) := by
  rcases hp : pop s with ⟨s2, o⟩
  rw [hp] at hpop
  simp only [Prod.snd] at hpop
  subst hpop
  have hnx : next h s = (s2, Event.unresolved p) := by
    unfold next; rw [hp]; simp [hres]
  rw [hnx]
  exact ⟨rfl, by simp, by simp, by simp⟩

/-- Witness for C8: an action whose path misses an empty surface. -/
theorem next_unresolved_loud_witness :
    (next (Node.nil : Node Nat)
        ({ actions := [Record.action ["zz"] ([] : List Nat)], step := none } : Saw Nat)).2
      = Event.unresolved ["zz"] :=
  (next_unresolved_loud (Node.nil : Node Nat)
    ({ actions := [Record.action ["zz"] ([] : List Nat)], step := none } : Saw Nat)
    ["zz"] ([] : List Nat) rfl rfl).1

/-- C9: the child chain constructed by `nest` (the state handed to the
nesting callback) has a fresh empty queue and is in recording mode exactly
when the parent is: a recording parent yields a recording child with cursor
0, a light parent yields a light child. -/
theorem nest_inherits_recording {α : Type} (parent : Saw α) (auto : Option Bool) :
    (nest parent auto).child.actions = []
    ∧ (nest parent auto).child.step = (if parent.step.isSome then some 0 else none) := by
  cases hst : parent.step <;> simp [nest, record, hst]

/-- C10: `record()` unconditionally resets the cursor to 0 — also on a chain
already recording mid-execution — leaves the queue alone, and installs the
non-destructive pop: popping after `record()` only advances the cursor to 1
and reads slot 0 without removing anything. -/
theorem record_resets {α : Type} (s : Saw α) :
    (record s).step = some 0
    ∧ (record s).actions = s.actions
    ∧ pop (record s) = ({ s with step := some 1 }, s.actions[0]?) :=
  ⟨rfl, rfl, rfl⟩

end Chainsaw
